import Mathlib

/-!
Shallow embedding of `simulate_bb84` from `src/bb84_notebook.ipynb`.

The notebook builds, per transmitted position, a one-qubit Qiskit circuit
starting from the state 0, applies an X gate when the sender's bit is 1 and an
H gate when the sender's basis is 1, optionally passes the circuit through the
eavesdropping block, then lets the receiver apply H when the receiver's basis
is 1 and measure once on an ideal (noiseless) simulator.

Under the gate set {X, H} starting from the state 0, the reachable single-qubit
states are, up to an irrelevant global phase, exactly the four states
0, 1, plus, minus; a Z-measurement is deterministic on 0 and 1 and a fair coin
on plus and minus.  The embedding therefore models a qubit as one of these four
states, the gates as the induced permutations, and each one-shot measurement as
a function of the state and one fresh fair coin.  All randomness (the Python
calls to random.randint and the simulator's sampling) is passed in explicitly
as streams of booleans, one independent stream per role, so that probabilistic
claims become exact counting over finite enumerations of the coins involved.
Floating-point division in the QBER is modelled with exact rationals.
-/

namespace BB84

/-- The four single-qubit states reachable in the notebook's circuits
(up to global phase): the computational-basis states and the Hadamard-basis
states. -/
inductive QState : Type
  | zero : QState
  | one : QState
  | plus : QState
  | minus : QState
deriving DecidableEq, Repr

/-- The X (bit-flip) gate on the reachable states; on the Hadamard-basis
states it only changes a global phase, which measurement cannot see. -/
def gateX : QState → QState
  | QState.zero => QState.one
  | QState.one => QState.zero
  | QState.plus => QState.plus
  | QState.minus => QState.minus

/-- The H (Hadamard) gate on the reachable states. -/
def gateH : QState → QState
  | QState.zero => QState.plus
  | QState.plus => QState.zero
  | QState.one => QState.minus
  | QState.minus => QState.one

/-- State preparation, as in the notebook: start from the state 0, apply X
when the bit is 1, then apply H when the basis is 1. -/
def prepare (bit basis : Bool) : QState :=
  (if basis then gateH else id) ((if bit then gateX else id) QState.zero)

/-- One-shot Z-basis measurement: deterministic on the computational-basis
states, and equal to a fresh fair coin `r` on the Hadamard-basis states. -/
def measureZ (s : QState) (r : Bool) : Bool :=
  match s with
  | QState.zero => false
  | QState.one => true
  | QState.plus => r
  | QState.minus => r

/-- Measurement in a chosen basis, as in the notebook: apply H when the basis
is 1, then Z-measure, consuming one coin `r` of the simulator's randomness. -/
def measure (s : QState) (basis : Bool) (r : Bool) : Bool :=
  measureZ ((if basis then gateH else id) s) r

/-- Eve's per-position block from the notebook's Step 3.  The source appends
an H (when her basis is 1) and a measurement to the in-flight circuit — whose
would-be outcome `measure s eveBasis c` is modelled here and returned as the
first component, although the source then discards that circuit without ever
executing it — and replaces the circuit by a brand-new one preparing a freshly
drawn random bit `freshBit` in the same basis `eveBasis`. -/
def intercept (s : QState) (eveBasis freshBit c : Bool) : Bool × QState :=
  (measure s eveBasis c, prepare freshBit eveBasis)

/-- The independent streams of uniformly random bits consumed by one trial:
the sender's bits and bases, Eve's bases, Eve's fresh resend bits, the coins
of Eve's (discarded) measurements, the receiver's bases, and the coins of the
receiver's one-shot measurements. -/
structure Streams where
  aliceBits : Nat → Bool
  aliceBases : Nat → Bool
  eveBases : Nat → Bool
  eveBits : Nat → Bool
  eveCoins : Nat → Bool
  bobBases : Nat → Bool
  bobCoins : Nat → Bool

/-- The state arriving at the receiver on position `i`: the sender's prepared
state, routed through Eve's block when eavesdropping is enabled. -/
def channelState (eavesdrop : Bool) (rs : Streams) (i : Nat) : QState :=
  if eavesdrop then
    (intercept (prepare (rs.aliceBits i) (rs.aliceBases i)) (rs.eveBases i)
      (rs.eveBits i) (rs.eveCoins i)).2
  else prepare (rs.aliceBits i) (rs.aliceBases i)

/-- The receiver's measured bit on position `i` (notebook Step 4). -/
def bobResult (eavesdrop : Bool) (rs : Streams) (i : Nat) : Bool :=
  measure (channelState eavesdrop rs i) (rs.bobBases i) (rs.bobCoins i)

/-- Key sifting exactly as the notebook's Step 5 loop: walk the positions in
order and append the pair of bits whenever the two bases agree. -/
def sift (aBases bBases bitsA bitsB : Nat → Bool) (n : Nat) :
    List Bool × List Bool :=
  (List.range n).foldl
    (fun acc i =>
      if aBases i == bBases i then (acc.1 ++ [bitsA i], acc.2 ++ [bitsB i])
      else acc)
    ([], [])

/-- The positions kept by sifting, in their original order. -/
def matchedIndices (aBases bBases : Nat → Bool) (n : Nat) : List Nat :=
  (List.range n).filter (fun i => aBases i == bBases i)

/-- The sifted key pair of one trial.  Python's `range` on a non-positive
argument is empty, which `Int.toNat` reproduces. -/
def siftedKeys (n_bits : Int) (eavesdrop : Bool) (rs : Streams) :
    List Bool × List Bool :=
  sift rs.aliceBases rs.bobBases rs.aliceBits (bobResult eavesdrop rs)
    n_bits.toNat

/-- QBER of one trial (notebook Step 6): 0 when the sifted key is empty,
otherwise the number of disagreeing sifted positions over the sifted length,
as an exact rational. -/
def qber (n_bits : Int) (eavesdrop : Bool) (rs : Streams) : ℚ :=
  if (siftedKeys n_bits eavesdrop rs).1.length = 0 then 0
  else
    ((((siftedKeys n_bits eavesdrop rs).1.zip
        (siftedKeys n_bits eavesdrop rs).2).countP
          (fun p => p.1 != p.2) : ℕ) : ℚ) /
      (((siftedKeys n_bits eavesdrop rs).1.length : ℕ) : ℚ)

/-- One full trial of the protocol, returning the sender's sifted key, the
receiver's sifted key and the QBER, as the notebook's function does. -/
def simulate_bb84 (n_bits : Int) (eavesdrop : Bool) (rs : Streams) :
    List Bool × List Bool × ℚ :=
  ((siftedKeys n_bits eavesdrop rs).1, (siftedKeys n_bits eavesdrop rs).2,
    qber n_bits eavesdrop rs)

/-- Streams that always answer `false`, used to instantiate theorems at
concrete inputs. -/
def constStreams : Streams where
  aliceBits := fun _ => false
  aliceBases := fun _ => false
  eveBases := fun _ => false
  eveBits := fun _ => false
  eveCoins := fun _ => false
  bobBases := fun _ => false
  bobCoins := fun _ => false

/-- The two equally likely outcomes of one fair coin. -/
def coinSpace : List Bool := [false, true]

/-- Exact probability, over one fair coin, that measuring `prepare bit basis`
in the opposite basis returns `out`. -/
def mismatchProb (bit basis out : Bool) : ℚ :=
  (((coinSpace.filter
      (fun r => measure (prepare bit basis) (!basis) r == out)).length : ℕ) : ℚ) /
    ((coinSpace.length : ℕ) : ℚ)

/-- All joint values of the five independent uniform bits that decide one
sifted position under eavesdropping: the sender's bit, Eve's basis, Eve's
fresh resend bit, the coin of Eve's discarded measurement, and the coin of
the receiver's measurement. -/
def eveSpace : List (Bool × Bool × Bool × Bool × Bool) :=
  coinSpace.flatMap (fun a => coinSpace.flatMap (fun eb => coinSpace.flatMap
    (fun ef => coinSpace.flatMap (fun ce => coinSpace.map
      (fun cb => (a, eb, ef, ce, cb))))))

/-- Exact probability that a sifted position (common basis `b`) disagrees
between sender and receiver when Eve's block is applied, marginalised over
all five uniform bits of `eveSpace`. -/
def siftedErrorProb (b : Bool) : ℚ :=
  (((eveSpace.filter (fun t =>
      measure (intercept (prepare t.1 b) t.2.1 t.2.2.1 t.2.2.2.1).2 b
          t.2.2.2.2 != t.1)).length : ℕ) : ℚ) /
    ((eveSpace.length : ℕ) : ℚ)

/-- All joint values of the four uniform bits of one eavesdropped sifted
position once Eve's basis is fixed. -/
def eveCondSpace : List (Bool × Bool × Bool × Bool) :=
  coinSpace.flatMap (fun a => coinSpace.flatMap (fun ef => coinSpace.flatMap
    (fun ce => coinSpace.map (fun cb => (a, ef, ce, cb)))))

/-- Exact probability that a sifted position with common basis `b` disagrees
between sender and receiver, conditional on Eve having chosen basis `eb`. -/
def siftedErrorProbGivenEveBasis (b eb : Bool) : ℚ :=
  (((eveCondSpace.filter (fun t =>
      measure (intercept (prepare t.1 b) eb t.2.1 t.2.2.1).2 b
          t.2.2.2 != t.1)).length : ℕ) : ℚ) /
    ((eveCondSpace.length : ℕ) : ℚ)

lemma measure_prepare_matched :
    ∀ bit basis r : Bool, measure (prepare bit basis) basis r = bit := by
  decide

lemma sift_eq (aBases bBases bitsA bitsB : Nat → Bool) (n : Nat) :
    sift aBases bBases bitsA bitsB n =
      ((matchedIndices aBases bBases n).map bitsA,
        (matchedIndices aBases bBases n).map bitsB) := by
  induction n with
  | zero => rfl
  | succ m ih =>
    simp only [sift, matchedIndices, List.range_succ, List.foldl_append,
      List.filter_append, List.map_append] at *
    rw [ih]
    cases hb : aBases m == bBases m
    · have hne : ¬aBases m = bBases m := by simpa using hb
      simp [hb, hne]
    · have heq : aBases m = bBases m := by simpa using hb
      simp [hb, heq]

lemma countP_zip_same (l : List Bool) :
    (l.zip l).countP (fun p => p.1 != p.2) = 0 := by
  induction l with
  | nil => rfl
  | cons a t ih => simp [List.zip_cons_cons, List.countP_cons, ih]

lemma simulate_bb84_nonpos (n : Int) (h : n ≤ 0) (e : Bool) (rs : Streams) :
    simulate_bb84 n e rs = ([], [], 0) := by
  have hz : n.toNat = 0 := Int.toNat_eq_zero.mpr h
  simp [simulate_bb84, siftedKeys, qber, sift, hz]

/-- C2: matched-basis determinism.  For every bit and basis, and every value
of the simulator's coin, measuring `prepare bit basis` in the same basis
returns exactly the prepared bit: the ideal channel is noiseless. -/
theorem C2_matched_basis_determinism :
    ∀ bit basis r : Bool, measure (prepare bit basis) basis r = bit := by
  decide

/-- C4: mismatched-basis uniformity.  Measuring `prepare bit basis` in the
opposite basis returns each outcome with probability exactly 1/2 over the
fair coin, and the outcome equals the fresh coin of that call, so outcomes
of distinct calls are independent whenever their coins are. -/
theorem C4_mismatched_basis_uniformity :
    (∀ bit basis out : Bool, mismatchProb bit basis out = 1 / 2) ∧
      (∀ bit basis r : Bool, measure (prepare bit basis) (!basis) r = r) := by
  constructor
  · intro bit basis out
    have hn : (coinSpace.filter
        (fun r => measure (prepare bit basis) (!basis) r == out)).length = 1 := by
      cases bit <;> cases basis <;> cases out <;> decide
    have hd : coinSpace.length = 2 := by decide
    unfold mismatchProb
    rw [hn, hd]
    norm_num
  · decide

/-- C5: the eavesdrop block measures the in-flight state in a uniformly
chosen basis, discards the measured bit, and forwards a state preparing a
fresh independent random bit in that same basis: the forwarded state is
exactly `prepare freshBit eveBasis`, it does not depend on the input state
or on the measurement coin (hence not on the measured bit), and measuring it
in Eve's basis yields the fresh bit, never the measured one. -/
theorem C5_intercept_rerandomizes :
    (∀ (s : QState) (eb ef c : Bool), (intercept s eb ef c).1 = measure s eb c) ∧
      (∀ (s : QState) (eb ef c : Bool), (intercept s eb ef c).2 = prepare ef eb) ∧
      (∀ (s t : QState) (eb ef c d : Bool),
        (intercept s eb ef c).2 = (intercept t eb ef d).2) ∧
      (∀ (s : QState) (eb ef c r : Bool),
        measure (intercept s eb ef c).2 eb r = ef) := by
  refine ⟨fun s eb ef c => rfl, fun s eb ef c => rfl, fun s t eb ef c d => rfl,
    fun s eb ef c r => ?_⟩
  exact measure_prepare_matched ef eb r

/-- C1 counterexample: the claim says each sifted position disagrees with
probability 1/4 under eavesdropping; on the code the exact probability is
1/2 for either common basis, because the forwarded bit is re-randomized
rather than the measured bit being resent. -/
theorem C1_counterexample :
    siftedErrorProb false ≠ 1 / 4 ∧ siftedErrorProb true ≠ 1 / 4 := by
  have h0 : (eveSpace.filter (fun t =>
      measure (intercept (prepare t.1 false) t.2.1 t.2.2.1 t.2.2.2.1).2 false
        t.2.2.2.2 != t.1)).length = 16 := by decide
  have h1 : (eveSpace.filter (fun t =>
      measure (intercept (prepare t.1 true) t.2.1 t.2.2.1 t.2.2.2.1).2 true
        t.2.2.2.2 != t.1)).length = 16 := by decide
  have hd : eveSpace.length = 32 := by decide
  unfold siftedErrorProb
  rw [h0, h1, hd]
  norm_num

/-- C1 amended: with eavesdropping active, each sifted position disagrees
with probability exactly 1/2 (not 1/4) over the uniform randomness of the
sender's bit, Eve's basis, Eve's fresh resend bit and the two measurement
coins, so the expected QBER tends to 0.5, not 0.25. -/
theorem C1_amended_sifted_error_half :
    ∀ b : Bool, siftedErrorProb b = 1 / 2 := by
  intro b
  have hn : (eveSpace.filter (fun t =>
      measure (intercept (prepare t.1 b) t.2.1 t.2.2.1 t.2.2.2.1).2 b
        t.2.2.2.2 != t.1)).length = 16 := by
    cases b <;> decide
  have hd : eveSpace.length = 32 := by decide
  unfold siftedErrorProb
  rw [hn, hd]
  norm_num

/-- C10: conditional on any fixed Eve basis — whether or not it matches the
common sender/receiver basis — a sifted position disagrees with probability
exactly 1/2, because the forwarded bit is an independent uniform bit. -/
theorem C10_error_half_given_eve_basis :
    ∀ b eb : Bool, siftedErrorProbGivenEveBasis b eb = 1 / 2 := by
  intro b eb
  have hn : (eveCondSpace.filter (fun t =>
      measure (intercept (prepare t.1 b) eb t.2.1 t.2.2.1).2 b
        t.2.2.2 != t.1)).length = 8 := by
    cases b <;> cases eb <;> decide
  have hd : eveCondSpace.length = 16 := by decide
  unfold siftedErrorProbGivenEveBasis
  rw [hn, hd]
  norm_num

/-- C3: without eavesdropping, for every qubit count and every value of all
the random streams, the receiver's sifted key equals the sender's sifted key
and the QBER is exactly 0: the event holds with probability 1. -/
theorem C3_no_eavesdrop_zero_qber (n : Int) (rs : Streams) :
    (simulate_bb84 n false rs).2.1 = (simulate_bb84 n false rs).1 ∧
      (simulate_bb84 n false rs).2.2 = 0 := by
  have hmap : (matchedIndices rs.aliceBases rs.bobBases n.toNat).map
      (bobResult false rs)
      = (matchedIndices rs.aliceBases rs.bobBases n.toNat).map rs.aliceBits := by
    apply List.map_congr_left
    intro i hi
    have hb : rs.aliceBases i = rs.bobBases i := by
      simpa using List.of_mem_filter hi
    show measure (prepare (rs.aliceBits i) (rs.aliceBases i)) (rs.bobBases i)
        (rs.bobCoins i) = rs.aliceBits i
    rw [← hb]
    exact measure_prepare_matched _ _ _
  have hkeys : (siftedKeys n false rs).2 = (siftedKeys n false rs).1 := by
    unfold siftedKeys
    rw [sift_eq]
    exact hmap
  refine ⟨hkeys, ?_⟩
  show qber n false rs = 0
  unfold qber
  by_cases h0 : (siftedKeys n false rs).1.length = 0
  · rw [if_pos h0]
  · rw [if_neg h0, hkeys, countP_zip_same]
    simp

/-- C6: for every trial, the two sifted keys have equal length, equal to the
number of positions below the qubit count where the two bases agree; each
sifted key is the image of the list of matching positions, which is strictly
increasing, so kept positions appear in original index order. -/
theorem C6_sifted_length_invariant (n : Int) (e : Bool) (rs : Streams) :
    (simulate_bb84 n e rs).1.length = (simulate_bb84 n e rs).2.1.length ∧
      (simulate_bb84 n e rs).1.length
        = (List.range n.toNat).countP
            (fun i => rs.aliceBases i == rs.bobBases i) ∧
      (simulate_bb84 n e rs).1
        = (matchedIndices rs.aliceBases rs.bobBases n.toNat).map rs.aliceBits ∧
      (simulate_bb84 n e rs).2.1
        = (matchedIndices rs.aliceBases rs.bobBases n.toNat).map
            (bobResult e rs) ∧
      List.Pairwise (fun a b => a < b)
        (matchedIndices rs.aliceBases rs.bobBases n.toNat) := by
  have h1 : (simulate_bb84 n e rs).1
      = (matchedIndices rs.aliceBases rs.bobBases n.toNat).map rs.aliceBits := by
    show (siftedKeys n e rs).1 = _
    unfold siftedKeys
    rw [sift_eq]
  have h2 : (simulate_bb84 n e rs).2.1
      = (matchedIndices rs.aliceBases rs.bobBases n.toNat).map
          (bobResult e rs) := by
    show (siftedKeys n e rs).2 = _
    unfold siftedKeys
    rw [sift_eq]
  refine ⟨?_, ?_, h1, h2, ?_⟩
  · rw [h1, h2]
    simp
  · rw [h1, List.length_map, matchedIndices, List.countP_eq_length_filter]
  · exact List.Pairwise.sublist (List.filter_sublist _)
      (List.pairwise_lt_range _)

/-- C7: the QBER of every trial lies in [0, 1]; it is 0 by the explicit
empty-sift branch when the sifted key is empty, and otherwise equals the
number of disagreeing sifted positions divided by the sifted length. -/
theorem C7_qber_bounds (n : Int) (e : Bool) (rs : Streams) :
    0 ≤ (simulate_bb84 n e rs).2.2 ∧ (simulate_bb84 n e rs).2.2 ≤ 1 ∧
      ((simulate_bb84 n e rs).1.length = 0 → (simulate_bb84 n e rs).2.2 = 0) ∧
      ((simulate_bb84 n e rs).1.length ≠ 0 →
        (simulate_bb84 n e rs).2.2 =
          ((((simulate_bb84 n e rs).1.zip (simulate_bb84 n e rs).2.1).countP
              (fun p => p.1 != p.2) : ℕ) : ℚ) /
            (((simulate_bb84 n e rs).1.length : ℕ) : ℚ)) := by
  have hlen : (siftedKeys n e rs).1.length = (siftedKeys n e rs).2.length := by
    unfold siftedKeys
    rw [sift_eq]
    simp
  by_cases h0 : (siftedKeys n e rs).1.length = 0
  · have hq : qber n e rs = 0 := by
      unfold qber
      rw [if_pos h0]
    exact ⟨le_of_eq hq.symm, by rw [show (simulate_bb84 n e rs).2.2 = qber n e rs from rfl, hq]; norm_num,
      fun _ => hq, fun hne => absurd h0 hne⟩
  · have hq : qber n e rs =
        ((((siftedKeys n e rs).1.zip (siftedKeys n e rs).2).countP
            (fun p => p.1 != p.2) : ℕ) : ℚ) /
          (((siftedKeys n e rs).1.length : ℕ) : ℚ) := by
      unfold qber
      rw [if_neg h0]
    have hpos : (0 : ℚ) < (((siftedKeys n e rs).1.length : ℕ) : ℚ) := by
      exact_mod_cast Nat.pos_of_ne_zero h0
    have hle : (((siftedKeys n e rs).1.zip (siftedKeys n e rs).2).countP
        (fun p => p.1 != p.2)) ≤ (siftedKeys n e rs).1.length := by
      calc ((siftedKeys n e rs).1.zip (siftedKeys n e rs).2).countP
            (fun p => p.1 != p.2)
          ≤ ((siftedKeys n e rs).1.zip (siftedKeys n e rs).2).length :=
            List.countP_le_length _
        _ = (siftedKeys n e rs).1.length := by
            rw [List.length_zip, ← hlen, min_self]
    refine ⟨?_, ?_, fun hz => absurd hz h0, fun _ => hq⟩
    · rw [show (simulate_bb84 n e rs).2.2 = qber n e rs from rfl, hq]
      exact div_nonneg (Nat.cast_nonneg _) (Nat.cast_nonneg _)
    · rw [show (simulate_bb84 n e rs).2.2 = qber n e rs from rfl, hq,
        div_le_one hpos]
      exact_mod_cast hle

/-- C7 witness: a concrete trial with one transmitted qubit and all-false
streams has a non-empty sifted key, and its QBER equals the disagreement
count divided by the sifted length. -/
theorem C7_qber_bounds_witness :
    (simulate_bb84 1 false constStreams).2.2 =
      ((((simulate_bb84 1 false constStreams).1.zip
          (simulate_bb84 1 false constStreams).2.1).countP
            (fun p => p.1 != p.2) : ℕ) : ℚ) /
        (((simulate_bb84 1 false constStreams).1.length : ℕ) : ℚ) :=
  (C7_qber_bounds 1 false constStreams).2.2.2 (by decide)

/-- C8 counterexample: with a zero or negative qubit count the run does not
fail: it returns the ordinary value of empty keys and QBER 0, because the
source performs no input validation and Python's range is simply empty. -/
theorem C8_counterexample_no_failure :
    simulate_bb84 (-1) true constStreams = ([], [], 0) ∧
      simulate_bb84 0 false constStreams = ([], [], 0) := by
  constructor <;> decide

/-- C8 amended: calling the protocol run with a negative or zero qubit count
is not treated as a fatal contract violation; the run silently continues and
returns empty sifted keys with QBER 0. -/
theorem C8_amended_silent_empty (n : Int) (h : n ≤ 0) (e : Bool)
    (rs : Streams) : simulate_bb84 n e rs = ([], [], 0) :=
  simulate_bb84_nonpos n h e rs

/-- C8 witness: the amended statement at qubit count -1 with eavesdropping
and the all-false streams. -/
theorem C8_amended_silent_empty_witness :
    simulate_bb84 (-1) true constStreams = ([], [], 0) :=
  C8_amended_silent_empty (-1) (by decide) true constStreams

/-- C9: for every non-positive qubit count and either eavesdrop flag, the
run returns empty sifted keys and QBER 0 without any error. -/
theorem C9_nonpositive_returns_empty (n : Int) (h : n ≤ 0) (rs : Streams) :
    simulate_bb84 n true rs = ([], [], 0) ∧
      simulate_bb84 n false rs = ([], [], 0) :=
  ⟨simulate_bb84_nonpos n h true rs, simulate_bb84_nonpos n h false rs⟩

/-- C9 witness: the statement at qubit count 0 with the all-false streams. -/
theorem C9_nonpositive_returns_empty_witness :
    simulate_bb84 0 true constStreams = ([], [], 0) ∧
      simulate_bb84 0 false constStreams = ([], [], 0) :=
  C9_nonpositive_returns_empty 0 (by decide) constStreams

end BB84
